import Mathlib

/-!
Verification development for the `stream-index.py` generator of the
jads-dev/joepedia-stream-index repository.  The Python source is shallowly
embedded: CSV rows are lists of strings, Python dicts are insertion-ordered
association lists, machine-level behaviour (string replace, `int()`,
`datetime.strptime` with the fixed format `"%a, %m/%d/%Y"`) is modelled by
executable Lean functions, and fallible code returns `Except`.
-/

namespace StreamIndex

/-- Errors a run of the script can raise.  `valueError` covers `int()` parse
failures and row-unpacking arity failures, `typeError` the `None < 300` /
`strptime(None, ...)` comparisons, `dateParse` a `strptime` format mismatch,
`keyError` a missing dict key. -/
inductive Err where
  | valueError
  | typeError
  | dateParse
  | keyError
  deriving DecidableEq, Repr

/-! ## Python `str.replace` (left-to-right, non-overlapping) -/

/-- One scan of Python's `str.replace`: `skip` counts characters still to be
consumed by a match already emitted.  Invoked with nonempty target `t`. -/
def pyReplaceAux (t r : List Char) : List Char → Nat → List Char
  | [], _ => []
  | _ :: cs, skip + 1 => pyReplaceAux t r cs skip
  | c :: cs, 0 =>
    if t.isPrefixOf (c :: cs) then r ++ pyReplaceAux t r cs (t.length - 1)
    else c :: pyReplaceAux t r cs 0

/-- Python `s.replace(t, r)` on character lists.  An empty target interleaves
the replacement around every character, as CPython does. -/
def pyReplace (t r s : List Char) : List Char :=
  match t with
  | [] => r ++ s.flatMap (fun c => c :: r)
  | _ :: _ => pyReplaceAux t r s 0

/-- Python `s.replace(t, r)` on strings. -/
def strReplace (s t r : String) : String := ⟨pyReplace t.toList r.toList s.toList⟩

/-- Python `s.startswith(p)`. -/
def pyStartsWith (s p : String) : Bool := p.toList.isPrefixOf s.toList

/-- Python `t in s` substring test, on character lists. -/
def containsSub (t : List Char) : List Char → Bool
  | [] => t.isEmpty
  | c :: cs => t.isPrefixOf (c :: cs) || containsSub t cs

/-! ## `wikify_link` and `canonicalise` (lines 63-74 of `stream-index.py`) -/

/-- `wikify_link(key, link)`: empty link yields no entry; otherwise prefix
`https://` when missing and escape every `=` as `&#61;`. -/
def wikify_link (key link : String) : List (String × String) :=
  if link = "" then []
  else
    let link_with_protocol := if pyStartsWith link "https://" then link else "https://" ++ link
    [(key, strReplace link_with_protocol "=" "&#61;")]

/-- `canonicalise(replacements, value)`: fold the ordered replacement table
over the value with Python `str.replace`. -/
def canonicalise (replacements : List (String × String)) (value : String) : String :=
  replacements.foldl (fun v tr => strReplace v tr.1 tr.2) value

/-! ## `datetime.strptime(_, "%a, %m/%d/%Y").strftime("%Y-%m-%d")` -/

/-- Lower-cased abbreviated weekday names accepted by `%a` in the C locale. -/
def wdAbbrevs : List (List Char) :=
  [['m','o','n'], ['t','u','e'], ['w','e','d'], ['t','h','u'],
   ['f','r','i'], ['s','a','t'], ['s','u','n']]

def digitVal (c : Char) : Nat := c.toNat - '0'.toNat

/-- Parse one or (greedily) two decimal digits, as `%m` / `%d` do before
their range is checked. -/
def parse2Digit : List Char → Option (Nat × List Char)
  | [] => none
  | c1 :: rest =>
    if c1.isDigit then
      match rest with
      | c2 :: rest2 =>
        if c2.isDigit then some (digitVal c1 * 10 + digitVal c2, rest2)
        else some (digitVal c1, rest)
      | [] => some (digitVal c1, [])
    else none

/-- Parse exactly four decimal digits, as `%Y` does. -/
def parse4Digit : List Char → Option (Nat × List Char)
  | a :: b :: c :: d :: rest =>
    if a.isDigit && b.isDigit && c.isDigit && d.isDigit then
      some ((((digitVal a * 10) + digitVal b) * 10 + digitVal c) * 10 + digitVal d, rest)
    else none
  | _ => none

def skipWs : List Char → List Char
  | [] => []
  | c :: cs => if c.isWhitespace then skipWs cs else c :: cs

def isLeap (y : Nat) : Bool := (y % 4 == 0 && y % 100 != 0) || y % 400 == 0

def daysInMonth (y m : Nat) : Nat :=
  if m == 2 then (if isLeap y then 29 else 28)
  else if m == 4 || m == 6 || m == 9 || m == 11 then 30
  else 31

/-- Model of `datetime.strptime(s, "%a, %m/%d/%Y")`: a case-insensitive
abbreviated weekday name, a literal comma, at least one whitespace character
(whitespace in the format matches a nonempty whitespace run), month and day as
one or two digits, a four-digit year, nothing left over; the calendar check of
the `datetime` constructor validates the day against the month and leap year.
The (unused) weekday is not checked for consistency with the date, as in
CPython.  Returns `(year, month, day)`. -/
def pyStrptimeAMDY (s : String) : Option (Nat × Nat × Nat) :=
  match s.toList with
  | c1 :: c2 :: c3 :: ',' :: w :: rest =>
    if wdAbbrevs.contains [c1.toLower, c2.toLower, c3.toLower] && w.isWhitespace then
      match parse2Digit (skipWs rest) with
      | some (m, r1) =>
        match r1 with
        | '/' :: r2 =>
          match parse2Digit r2 with
          | some (d, r3) =>
            match r3 with
            | '/' :: r4 =>
              match parse4Digit r4 with
              | some (y, []) =>
                if 1 ≤ y && 1 ≤ m && m ≤ 12 && 1 ≤ d && d ≤ daysInMonth y m then
                  some (y, m, d)
                else none
              | _ => none
            | _ => none
          | none => none
        | _ => none
      | none => none
    else none
  | _ => none

/-- Zero-pad a number to a width, as `strftime` does. -/
def padNum (w n : Nat) : String := ⟨List.replicate (w - (Nat.repr n).length) '0' ++ (Nat.repr n).toList⟩

/-- `strftime("%Y-%m-%d")` on a parsed date. -/
def formatISO : Nat × Nat × Nat → String
  | (y, m, d) => padNum 4 y ++ "-" ++ padNum 2 m ++ "-" ++ padNum 2 d

/-! ## Python `int()` -/

def digitsToNat : List Char → Option Nat
  | [] => none
  | cs => if cs.all Char.isDigit then some (cs.foldl (fun a c => a * 10 + digitVal c) 0) else none

/-- Model of Python `int(s)` for plain decimal literals: surrounding
whitespace stripped, an optional sign, then one or more digits. -/
def pyInt (s : String) : Option Int :=
  let l := ((s.toList.dropWhile Char.isWhitespace).reverse.dropWhile Char.isWhitespace).reverse
  match l with
  | '-' :: ds => (digitsToNat ds).map (fun n => -(n : Int))
  | '+' :: ds => (digitsToNat ds).map (fun n => (n : Int))
  | ds => (digitsToNat ds).map (fun n => (n : Int))

instance {e a : Type} [DecidableEq e] [DecidableEq a] : DecidableEq (Except e a) := fun x y =>
  match x, y with
  | .ok u, .ok v => decidable_of_iff (u = v) (by simp)
  | .error u, .error v => decidable_of_iff (u = v) (by simp)
  | .ok _, .error _ => isFalse (by simp)
  | .error _, .ok _ => isFalse (by simp)

/-! ## Record values and insertion-ordered dicts -/

/-- A Python value stored in a record dict: the integers `index`/`part`/
`last_part`, the string fields, the `vod` string-to-string mapping, and
list-valued override fields (e.g. guest lists). -/
inductive Value where
  | vInt (n : Int)
  | vStr (s : String)
  | vMap (m : List (String × String))
  | vList (l : List String)
  deriving DecidableEq, Repr

/-- A Python dict as an insertion-ordered association list with unique keys. -/
abbrev Dict := List (String × Value)

/-- `d[k] = v` on an assoc list: replace in place when the key exists,
append otherwise — Python dict assignment. -/
def assocInsert {α β : Type} [BEq α] (d : List (α × β)) (k : α) (v : β) : List (α × β) :=
  if d.any (fun p => p.1 == k) then d.map (fun p => if p.1 == k then (k, v) else p)
  else d ++ [(k, v)]

/-- `{**d, **e}`: fold the entries of `e` into `d` by dict assignment. -/
def assocMerge {α β : Type} [BEq α] (d e : List (α × β)) : List (α × β) :=
  e.foldl (fun acc kv => assocInsert acc kv.1 kv.2) d

/-- `d.get(k)` as an option. -/
def assocFind {α β : Type} [BEq α] (d : List (α × β)) (k : α) : Option β :=
  (d.find? (fun p => p.1 == k)).map (fun p => p.2)

/-- `d[k]`, raising `KeyError` when absent. -/
def getItem {α β : Type} [BEq α] (d : List (α × β)) (k : α) : Except Err β :=
  match assocFind d k with
  | some v => .ok v
  | none => .error .keyError

/-- Whether key `k` is present. -/
def hasKey {α β : Type} [BEq α] (d : List (α × β)) (k : α) : Bool :=
  d.any (fun p => p.1 == k)

/-- `del d[k]`, raising `KeyError` when absent. -/
def delItem {α β : Type} [BEq α] (d : List (α × β)) (k : α) : Except Err (List (α × β)) :=
  if hasKey d k then .ok (d.filter (fun p => !(p.1 == k))) else .error .keyError

/-- Python truthiness of a record value (`if value` in the renderer). -/
def truthy : Value → Bool
  | .vInt n => !(n == 0)
  | .vStr s => !(s == "")
  | .vMap m => !m.isEmpty
  | .vList l => !l.isEmpty

/-! ## The Row Normalizer: `read_and_standardise` (lines 88-137) -/

/-- Carry-forward state of `read_and_standardise`: the previous emitted
record's resolved index and raw date string, plus the running part counter. -/
structure NormSt where
  prev_index : Option Int
  prev_date : Option String
  part : Int
  deriving DecidableEq, Repr

/-- The state before the first row: `previous_index, previous_date = None,
None` and `part = 1`. -/
def initSt : NormSt := ⟨none, none, 1⟩

/-- `current_index = int(index) if index else previous_index` — a `None`
result is not an error yet (the crash happens later at `current_index < 300`). -/
def resolveIndex (index : String) (st : NormSt) : Except Err (Option Int) :=
  if index ≠ "" then
    match pyInt index with
    | some n => .ok (some n)
    | none => .error .valueError
  else .ok st.prev_index

/-- `current_date = date if date else previous_date`. -/
def resolveDate (date : String) (st : NormSt) : Option String :=
  if date ≠ "" then some date else st.prev_date

/-- `part = part + 1 if not index else 1`. -/
def nextPart (index : String) (st : NormSt) : Int :=
  if index = "" then st.part + 1 else 1

/-- The graph filter of line 107: `(not index and date) or other_date ==
"(Today)"`. -/
def graphFiltered (index date other_date : String) : Bool :=
  (index == "" && date != "") || other_date == "(Today)"

/-- The dict literal of lines 110-113: `{**wikify_link("with_chat", v1),
**wikify_link("without_chat", v2)}`. -/
def vodDict (vod_with_chat vod_without_chat : String) : List (String × String) :=
  assocMerge (wikify_link "with_chat" vod_with_chat)
    (wikify_link "without_chat" vod_without_chat)

/-- The core fields of the yielded record dict, in their insertion order
(lines 125-133), before `**additional` is merged in. -/
def coreFields (ci : Int) (iso : String) (part : Int) (game game_index : String)
    (vods : List (String × String)) : Dict :=
  [("index", .vInt ci), ("date", .vStr iso), ("part", .vInt part),
   ("game", .vStr game), ("game_index", .vStr game_index), ("vod", .vMap vods)]

/-- One iteration of the `read_and_standardise` loop body on a raw CSV row
(a list of at least nine field strings): produces the updated state and the
emitted record, if any.  Mirrors lines 93-137 in order: unpack, graph
filter, vod extraction, index/date carry-forward, part counting, joke
filter, enrichment lookup, date parse, yield, state update. -/
def processRow (repl : List (String × String)) (additional : List (Int × Dict))
    (st : NormSt) (row : List String) : Except Err (NormSt × Option Dict) :=
  match row with
  | index :: date :: other_date :: game :: game_index ::
      vod_with_chat :: _ :: _ :: vod_without_chat :: _ =>
    if graphFiltered index date other_date then .ok (st, none)
    else
      let vods := vodDict vod_with_chat vod_without_chat
      match resolveIndex index st with
      | .error e => .error e
      | .ok currentIndexOpt =>
        let current_date := resolveDate date st
        let part := nextPart index st
        match currentIndexOpt with
        | none => .error .typeError
        | some current_index =>
          if current_index < 300 && game == "Signalis" then
            .ok ({ st with part := part }, none)
          else
            let additionalRow := ((additional.find? (fun kv => kv.1 == current_index)).map
              (fun kv => kv.2)).getD []
            match current_date with
            | none => .error .typeError
            | some cd =>
              match pyStrptimeAMDY cd with
              | none => .error .dateParse
              | some ymd =>
                let record := assocMerge
                  (coreFields current_index (formatISO ymd) part
                    (canonicalise repl game) game_index vods) additionalRow
                .ok (⟨some current_index, some cd, part⟩, some record)
  | _ => .error .valueError

/-- The normalizer loop over the remaining rows, threading state and
collecting emitted records. -/
def normGo (repl : List (String × String)) (additional : List (Int × Dict))
    (st : NormSt) : List (List String) → Except Err (List Dict)
  | [] => .ok []
  | row :: rest =>
    match processRow repl additional st row with
    | .error e => .error e
    | .ok (st', none) => normGo repl additional st' rest
    | .ok (st', some r) =>
      match normGo repl additional st' rest with
      | .error e => .error e
      | .ok rs => .ok (r :: rs)

/-- `read_and_standardise`: skip `skip_rows + 1` leading rows
(`itertools.islice(reader, skip_rows + 1, None)`), then run the loop from the
initial state.  The list is the fully-consumed generator, as `list(...)`
builds it in `__main__`. -/
def read_and_standardise (skip_rows : Nat) (repl : List (String × String))
    (additional : List (Int × Dict)) (rows : List (List String)) :
    Except Err (List Dict) :=
  normGo repl additional initSt (rows.drop (skip_rows + 1))

/-! ## `as_template_argument` (lines 140-149) -/

/-- Flatten one record field into `key=value` argument strings: mappings as
`key_subkey=subvalue`, non-string sequences as `key=v1`, `key2=v2`, ...,
scalars as `key=value`. -/
def as_template_argument (key : String) : Value → List String
  | .vMap m => m.map (fun kv => key ++ "_" ++ kv.1 ++ "=" ++ kv.2)
  | .vList l => l.enum.map (fun iv =>
      key ++ (if iv.1 > 0 then Nat.repr (iv.1 + 1) else "") ++ "=" ++ iv.2)
  | .vInt n => [key ++ "=" ++ toString n]
  | .vStr s => [key ++ "=" ++ s]

/-! ## The Wiki Table Renderer: `generate_wiki_source` (lines 152-200) -/

/-- `row["part"] > 1`; a non-integer value would raise a `TypeError` as in
Python. -/
def valueGtOne : Value → Except Err Bool
  | .vInt n => .ok (decide (n > 1))
  | _ => .error .typeError

/-- Line 162: `multipart = {row["index"] for row in rows if row["part"] > 1}`.
The set is modelled as the list of collected indices (possibly with
duplicates); only membership is ever used. -/
def multipartE : List Dict → Except Err (List Value)
  | [] => .ok []
  | r :: rs =>
    match getItem r "part" with
    | .error e => .error e
    | .ok p =>
      match valueGtOne p with
      | .error e => .error e
      | .ok gt =>
        if gt then
          match getItem r "index" with
          | .error e => .error e
          | .ok i =>
            match multipartE rs with
            | .error e => .error e
            | .ok rest => .ok (i :: rest)
        else multipartE rs

/-- Line 164: `games = {row["game"]: random.choice(colors) for row in rows}`.
The random draw is modelled by an oracle `colorOf` giving the colour chosen
while processing each row; the comprehension keeps the first-occurrence key
position and the last-drawn value. -/
def buildGames (colorOf : Dict → String) (acc : List (Value × String)) :
    List Dict → Except Err (List (Value × String))
  | [] => .ok acc
  | r :: rs =>
    match getItem r "game" with
    | .error e => .error e
    | .ok g => buildGames colorOf (assocInsert acc g (colorOf r)) rs

/-- Lines 176-186: build the `template_args` dict for one record —
`{**row, "color": games[row["game"]]}`, then either delete `part` (index not
multipart) or set `last_part = 1` when the previous iterated index differs. -/
def templateArgsFor (multipart : List Value) (games : List (Value × String))
    (previous_index : Option Value) (row : Dict) : Except Err Dict :=
  match getItem row "index" with
  | .error e => .error e
  | .ok index =>
    match getItem row "game" with
    | .error e => .error e
    | .ok g =>
      match getItem games g with
      | .error e => .error e
      | .ok color =>
        let ta := assocInsert row "color" (.vStr color)
        if !(multipart.contains index) then delItem ta "part"
        else .ok (if !(previous_index == some index) then
            assocInsert ta "last_part" (.vInt 1) else ta)

/-- Lines 187-193: keep the truthy fields, flatten each through
`as_template_argument`, in dict order. -/
def argsOf (ta : Dict) : List String :=
  (ta.filter (fun kv => truthy kv.2)).flatMap (fun kv => as_template_argument kv.1 kv.2)

/-- Line 194: the emitted `{{StreamIndexEntry|...}}` line. -/
def entryLine (ta : Dict) : String :=
  "  \x7b\x7bStreamIndexEntry|" ++ String.intercalate "|" (argsOf ta) ++ "\x7d\x7d"

/-- The per-record loop of lines 174-195 over the already-reversed record
list, threading `previous_index` (updated after every record).  Each step
keeps the `template_args` dict next to its rendered line so that theorems can
speak about the fields of an entry. -/
def renderSteps (multipart : List Value) (games : List (Value × String)) :
    Option Value → List Dict → Except Err (List (Dict × String))
  | _, [] => .ok []
  | prev, row :: rest =>
    match templateArgsFor multipart games prev row with
    | .error e => .error e
    | .ok ta =>
      match getItem row "index" with
      | .error e => .error e
      | .ok index =>
        match renderSteps multipart games (some index) rest with
        | .error e => .error e
        | .ok rs => .ok ((ta, entryLine ta) :: rs)

/-- Where this script can be found (line 49). -/
def SCRIPT : String := "https://github.com/jads-dev/joepedia-stream-index"

/-- The manual-edit warning block of lines 52-60. -/
def WARNING : List String :=
  ["<!--",
   "  This content is generated by a script which can be found at ",
   "  " ++ SCRIPT ++ ".",
   "  Manual changes **WILL BE LOST** when the script is next run, you almost",
   "  certainly want to re-run the script with new data, make changes to the ",
   "  script, or modify the StreamIndexEntry template instead.",
   "-->"]

/-- `generate_wiki_source(data_source_id, rows, colors)`: the full output
line sequence — warning, table header, the entries over `reversed(rows)`,
table footer, warning, trailing blank line. -/
def generate_wiki_source (data_source_id : String) (rows : List Dict)
    (colorOf : Dict → String) : Except Err (List String) :=
  let data_source_url := "https://docs.google.com/spreadsheets/d/" ++ data_source_id
  let data_attribution := "sourced from a spreadsheet maintained \x7b\x7bAttribution|Falco\x7d\x7d<ref>[" ++ data_source_url ++ " Falco’s Spreadsheet of Joe content].</ref>"
  let script_attribution := "and processed using a script originally written \x7b\x7bAttribution|JayUplink\x7d\x7d<ref>[" ++ SCRIPT ++ " “joepedia-stream-index” on GitHub].</ref>"
  let attributions := String.intercalate ", " [data_attribution, script_attribution]
  match multipartE rows with
  | .error e => .error e
  | .ok multipart =>
    match buildGames colorOf [] rows with
    | .error e => .error e
    | .ok games =>
      match renderSteps multipart games none rows.reverse with
      | .error e => .error e
      | .ok steps =>
        .ok (WARNING ++
          ["<div style=\"display: flex; justify-content: center;\">",
           "\x7b| class=\"wikitable\" ",
           "  |+ style=\"caption-side:bottom;\"|This data is " ++ attributions ++ ".",
           "|-",
           "! # !! Date !! Game !! No. in Series !! Available VODs",
           ""] ++
          steps.map (fun p => p.2) ++
          ["|\x7d", "</div>"] ++ WARNING ++ [""])

/-- The core pipeline of `__main__` (lines 240-257): normalize all rows, then
render; a failure anywhere yields no output lines at all. -/
def runPipeline (skip_rows : Nat) (repl : List (String × String))
    (additional : List (Int × Dict)) (data_source_id : String)
    (colorOf : Dict → String) (rows : List (List String)) :
    Except Err (List String) :=
  match read_and_standardise skip_rows repl additional rows with
  | .error e => .error e
  | .ok recs => generate_wiki_source data_source_id recs colorOf

/-! ## Lemmas about `pyReplace` -/

theorem isPrefixOf_single {c0 c : Char} {cs : List Char} :
    ([c0].isPrefixOf (c :: cs)) = (c0 == c) := by
  simp [List.isPrefixOf]

theorem not_mem_pyReplaceAux_single {c0 : Char} {r : List Char} (hc : c0 ∉ r) :
    ∀ (s : List Char) (skip : Nat), c0 ∉ pyReplaceAux [c0] r s skip := by
  intro s
  induction s with
  | nil => intro skip; simp [pyReplaceAux]
  | cons c cs ih =>
    intro skip
    cases skip with
    | succ n => simpa [pyReplaceAux] using ih n
    | zero =>
      by_cases h : ([c0].isPrefixOf (c :: cs)) = true
      · simp only [pyReplaceAux, h, if_true, List.length_cons, List.length_nil]
        intro hmem
        rcases List.mem_append.mp hmem with h1 | h1
        · exact hc h1
        · exact ih 0 h1
      · have hne : (c0 == c) = false := by
          rw [isPrefixOf_single] at h
          exact Bool.not_eq_true _ ▸ Bool.of_not_eq_true h
        simp only [pyReplaceAux, h, if_false]
        intro hmem
        rcases List.mem_cons.mp hmem with h1 | h1
        · subst h1; simp at hne
        · exact ih 0 h1

theorem pyReplaceAux_single_append {c0 : Char} {r p : List Char} (hp : c0 ∉ p)
    (s : List Char) :
    pyReplaceAux [c0] r (p ++ s) 0 = p ++ pyReplaceAux [c0] r s 0 := by
  induction p with
  | nil => rfl
  | cons a as ih =>
    have ha : c0 ≠ a := fun h => hp (h ▸ List.mem_cons_self a as)
    have hnp : ([c0].isPrefixOf (a :: (as ++ s))) = false := by
      rw [isPrefixOf_single]; exact beq_eq_false_iff_ne.mpr ha
    have has : c0 ∉ as := fun h => hp (List.mem_cons_of_mem a h)
    simp only [List.cons_append, pyReplaceAux, List.append_eq, hnp, Bool.false_eq_true,
      if_false, ih has]

theorem isPrefixOf_append_self {α : Type} [BEq α] [LawfulBEq α] (t x : List α) :
    t.isPrefixOf (t ++ x) = true :=
  List.isPrefixOf_iff_prefix.mpr (List.prefix_append t x)

theorem containsSub_append_self (t x : List Char) :
    containsSub t (t ++ x) = true := by
  cases t with
  | nil => cases x <;> simp [containsSub, List.isEmpty, List.isPrefixOf]
  | cons a as =>
    simp only [containsSub, List.append_eq]
    have h1 : (a :: as).isPrefixOf (a :: (as ++ x)) = true := isPrefixOf_append_self (a :: as) x
    rw [h1, Bool.true_or]

theorem containsSub_r_pyReplaceAux {c0 : Char} {r : List Char} :
    ∀ s : List Char, c0 ∈ s → containsSub r (pyReplaceAux [c0] r s 0) = true := by
  intro s
  induction s with
  | nil => intro h; cases h
  | cons c cs ih =>
    intro hmem
    by_cases h : ([c0].isPrefixOf (c :: cs)) = true
    · simp only [pyReplaceAux, h, if_true, List.length_cons, List.length_nil]
      exact containsSub_append_self r _
    · have hne : c0 ≠ c := by
        rw [isPrefixOf_single] at h
        exact fun he => h (by simp [he])
      have hcs : c0 ∈ cs := by
        rcases List.mem_cons.mp hmem with h1 | h1
        · exact absurd h1 hne
        · exact h1
      simp only [pyReplaceAux, h, Bool.false_eq_true, if_false, containsSub,
        ih hcs, Bool.or_true]

theorem containsSub_nil_eq_true (l : List Char) : containsSub [] l = true := by
  cases l <;> simp [containsSub, List.isEmpty, List.isPrefixOf]

theorem pyReplaceAux_of_not_containsSub {t r : List Char} :
    ∀ s : List Char, containsSub t s = false → pyReplaceAux t r s 0 = s := by
  intro s
  induction s with
  | nil => intro _; cases t <;> rfl
  | cons c cs ih =>
    intro h
    simp only [containsSub, Bool.or_eq_false_iff] at h
    simp only [pyReplaceAux, h.1, Bool.false_eq_true, if_false, ih h.2]

theorem strReplace_of_not_containsSub {v t r : String}
    (h : containsSub t.toList v.toList = false) : strReplace v t r = v := by
  unfold strReplace pyReplace
  match ht : t.toList with
  | [] => rw [ht] at h; rw [containsSub_nil_eq_true] at h; cases h
  | c :: cs =>
    rw [ht] at h
    show String.mk (pyReplaceAux (c :: cs) r.toList v.toList 0) = v
    rw [pyReplaceAux_of_not_containsSub v.toList h]
    rfl

theorem canonicalise_of_no_targets :
    ∀ (rs : List (String × String)) (v : String),
    (∀ p ∈ rs, containsSub p.1.toList v.toList = false) → canonicalise rs v = v := by
  intro rs
  induction rs with
  | nil => intro v _; rfl
  | cons p ps ih =>
    intro v h
    have h1 : strReplace v p.1 p.2 = v :=
      strReplace_of_not_containsSub (h p (List.mem_cons_self p ps))
    show canonicalise ps (strReplace v p.1 p.2) = v
    rw [h1]
    exact ih v (fun q hq => h q (List.mem_cons_of_mem p hq))

/-! ## Lemmas about assoc-list dicts -/

theorem assocFind_map_update {α β : Type} [BEq α] [LawfulBEq α] {k k' : α} {v : β}
    (h : (k == k') = false) :
    ∀ d : List (α × β),
      assocFind (d.map (fun p => if p.1 == k then (k, v) else p)) k' = assocFind d k' := by
  intro d
  induction d with
  | nil => rfl
  | cons p ps ih =>
    by_cases hp : (p.1 == k) = true
    · have hpk : p.1 = k := eq_of_beq hp
      have hpk' : (p.1 == k') = false := by rw [hpk]; exact h
      simp only [List.map_cons, hp, if_true, assocFind, List.find?_cons, h, hpk']
      exact ih
    · have hp' : (p.1 == k) = false := Bool.not_eq_true _ ▸ Bool.of_not_eq_true hp
      simp only [List.map_cons, hp', Bool.false_eq_true, if_false, assocFind, List.find?_cons]
      cases hpq : (p.1 == k') with
      | true => rfl
      | false => exact ih

theorem assocFind_append_single {α β : Type} [BEq α] {k k' : α} {v : β}
    (h : (k == k') = false) :
    ∀ d : List (α × β), assocFind (d ++ [(k, v)]) k' = assocFind d k' := by
  intro d
  induction d with
  | nil => simp only [List.nil_append, assocFind, List.find?_cons, h, List.find?_nil]
  | cons p ps ih =>
    simp only [List.cons_append, assocFind, List.find?_cons]
    cases hpq : (p.1 == k') with
    | true => rfl
    | false => exact ih

theorem assocFind_insert_of_ne {α β : Type} [BEq α] [LawfulBEq α]
    {d : List (α × β)} {k k' : α} {v : β} (h : (k == k') = false) :
    assocFind (assocInsert d k v) k' = assocFind d k' := by
  unfold assocInsert
  split
  · exact assocFind_map_update h d
  · exact assocFind_append_single h d

theorem assocFind_merge_of_not_hasKey {α β : Type} [BEq α] [LawfulBEq α] {k : α} :
    ∀ {e d : List (α × β)}, hasKey e k = false →
      assocFind (assocMerge d e) k = assocFind d k := by
  intro e
  induction e with
  | nil => intro d _; rfl
  | cons kv e' ih =>
    intro d h
    simp only [hasKey, List.any_cons, Bool.or_eq_false_iff] at h
    show assocFind (assocMerge (assocInsert d kv.1 kv.2) e') k = assocFind d k
    rw [ih (by simp only [hasKey]; exact h.2)]
    exact assocFind_insert_of_ne h.1

theorem hasKey_map_update {α β : Type} [BEq α] [LawfulBEq α] {k k' : α} {v : β}
    (h : (k == k') = false) :
    ∀ d : List (α × β),
      hasKey (d.map (fun p => if p.1 == k then (k, v) else p)) k' = hasKey d k' := by
  intro d
  induction d with
  | nil => rfl
  | cons p ps ih =>
    by_cases hp : (p.1 == k) = true
    · have hpk' : (p.1 == k') = false := by rw [eq_of_beq hp]; exact h
      simp only [List.map_cons, hp, if_true, hasKey, List.any_cons, h, hpk']
      simp only [hasKey] at ih
      rw [ih]
    · have hp' : (p.1 == k) = false := Bool.not_eq_true _ ▸ Bool.of_not_eq_true hp
      simp only [List.map_cons, hp', Bool.false_eq_true, if_false, hasKey, List.any_cons]
      simp only [hasKey] at ih
      rw [ih]

theorem hasKey_append {α β : Type} [BEq α] (d e : List (α × β)) (k : α) :
    hasKey (d ++ e) k = (hasKey d k || hasKey e k) := by
  simp [hasKey, List.any_append]

theorem hasKey_insert_of_ne {α β : Type} [BEq α] [LawfulBEq α]
    {d : List (α × β)} {k k' : α} {v : β} (h : (k == k') = false) :
    hasKey (assocInsert d k v) k' = hasKey d k' := by
  unfold assocInsert
  split
  · exact hasKey_map_update h d
  · rw [hasKey_append]
    simp [hasKey, h]

theorem hasKey_insert_self {α β : Type} [BEq α] [LawfulBEq α]
    (d : List (α × β)) (k : α) (v : β) :
    hasKey (assocInsert d k v) k = true := by
  unfold assocInsert
  split
  next hany =>
    simp only [hasKey, List.any_eq_true] at hany ⊢
    obtain ⟨p, hp, hpk⟩ := hany
    exact ⟨(k, v), List.mem_map.mpr ⟨p, hp, by simp [hpk]⟩, by simp⟩
  · rw [hasKey_append]
    simp [hasKey]

theorem hasKey_merge_of_not_hasKey {α β : Type} [BEq α] [LawfulBEq α] {k : α} :
    ∀ {e d : List (α × β)}, hasKey e k = false →
      hasKey (assocMerge d e) k = hasKey d k := by
  intro e
  induction e with
  | nil => intro d _; rfl
  | cons kv e' ih =>
    intro d h
    simp only [hasKey, List.any_cons, Bool.or_eq_false_iff] at h
    show hasKey (assocMerge (assocInsert d kv.1 kv.2) e') k = hasKey d k
    rw [ih (by simp only [hasKey]; exact h.2)]
    exact hasKey_insert_of_ne h.1

theorem assocMerge_eq_append {α β : Type} [BEq α] [LawfulBEq α] :
    ∀ {e d : List (α × β)}, (∀ kv ∈ e, hasKey d kv.1 = false) →
      (e.map Prod.fst).Nodup → assocMerge d e = d ++ e := by
  intro e
  induction e with
  | nil => intro d _ _; simp [assocMerge]
  | cons kv e' ih =>
    intro d hdisj hnodup
    have hhd : hasKey d kv.1 = false := hdisj kv (List.mem_cons_self kv e')
    have hhd' : (d.any fun p => p.1 == kv.1) = false := hhd
    have hins : assocInsert d kv.1 kv.2 = d ++ [kv] := by
      unfold assocInsert
      rw [if_neg (by rw [hhd']; exact Bool.false_ne_true)]
    show assocMerge (assocInsert d kv.1 kv.2) e' = d ++ kv :: e'
    rw [hins]
    rw [List.map_cons, List.nodup_cons] at hnodup
    rw [ih ?_ hnodup.2]
    · simp
    · intro q hq
      rw [hasKey_append]
      have h1 : hasKey d q.1 = false := hdisj q (List.mem_cons_of_mem kv hq)
      have h2 : hasKey [kv] q.1 = false := by
        simp only [hasKey, List.any_cons, List.any_nil, Bool.or_false]
        exact beq_eq_false_iff_ne.mpr
          (fun he => hnodup.1 (he ▸ List.mem_map.mpr ⟨q, hq, rfl⟩))
      rw [h1, h2]
      rfl

/-! ## Characterizations of one `read_and_standardise` iteration -/

/-- What must have happened when `processRow` emitted a record: the row
passed both filters, index and date resolved, the date parsed, the state
became the resolved index/raw date and new part, and the record is the core
fields merged with the override entry for the resolved index. -/
theorem processRow_ok_some {repl : List (String × String)} {additional : List (Int × Dict)}
    {st : NormSt} {index date other_date game game_index v1 x1 x2 v2 : String}
    {tail : List String} {st' : NormSt} {r : Dict}
    (h : processRow repl additional st
      (index :: date :: other_date :: game :: game_index :: v1 :: x1 :: x2 :: v2 :: tail) =
      .ok (st', some r)) :
    ∃ ci cd ymd, graphFiltered index date other_date = false ∧
      resolveIndex index st = .ok (some ci) ∧
      resolveDate date st = some cd ∧
      (ci < 300 && game == "Signalis") = false ∧
      pyStrptimeAMDY cd = some ymd ∧
      st' = ⟨some ci, some cd, nextPart index st⟩ ∧
      r = assocMerge (coreFields ci (formatISO ymd) (nextPart index st)
            (canonicalise repl game) game_index (vodDict v1 v2))
          (((additional.find? (fun kv => kv.1 == ci)).map (fun kv => kv.2)).getD []) := by
  simp only [processRow] at h
  split at h
  · cases h
  next hGraph =>
    split at h
    · cases h
    next heqIdx =>
      split at h
      · cases h
      next ci =>
        split at h
        · cases h
        next hJoke =>
          split at h
          · cases h
          next cd heqDate =>
            split at h
            · cases h
            next ymd heqY =>
              refine ⟨ci, cd, ymd, by simpa using hGraph, heqIdx, heqDate, ?_, heqY, ?_, ?_⟩
              · simpa using hJoke
              · cases h; rfl
              · cases h; rfl

/-- What must have happened when `processRow` skipped a row: either the graph
filter matched and the state is untouched, or the joke filter matched, the
part counter advanced and the carry-forward state is untouched.  In both
cases `previous_index` and `previous_date` are unchanged. -/
theorem processRow_ok_none {repl : List (String × String)} {additional : List (Int × Dict)}
    {st : NormSt} {index date other_date game game_index v1 x1 x2 v2 : String}
    {tail : List String} {st' : NormSt}
    (h : processRow repl additional st
      (index :: date :: other_date :: game :: game_index :: v1 :: x1 :: x2 :: v2 :: tail) =
      .ok (st', none)) :
    st'.prev_index = st.prev_index ∧ st'.prev_date = st.prev_date ∧
    ((graphFiltered index date other_date = true ∧ st' = st) ∨
     (graphFiltered index date other_date = false ∧
      ∃ ci, resolveIndex index st = .ok (some ci) ∧
        (ci < 300 && game == "Signalis") = true ∧
        st' = { st with part := nextPart index st })) := by
  simp only [processRow] at h
  split at h
  next hGraph =>
    cases h
    exact ⟨rfl, rfl, Or.inl ⟨hGraph, rfl⟩⟩
  next hGraph =>
    split at h
    · cases h
    next heqIdx =>
      split at h
      · cases h
      next ci =>
        split at h
        next hJoke =>
          cases h
          exact ⟨rfl, rfl, Or.inr ⟨by simpa using hGraph, ci, heqIdx, hJoke, rfl⟩⟩
        next hJoke =>
          split at h
          · cases h
          next cd heqDate =>
            split at h
            · cases h
            · cases h

/-- When the row passes both filters but its resolved date fails to parse,
`processRow` raises the date parse error. -/
theorem processRow_dateParse {repl : List (String × String)} {additional : List (Int × Dict)}
    {st : NormSt} {index date other_date game game_index v1 x1 x2 v2 : String}
    {tail : List String} {ci : Int} {cd : String}
    (hGraph : graphFiltered index date other_date = false)
    (hIdx : resolveIndex index st = .ok (some ci))
    (hJoke : (ci < 300 && game == "Signalis") = false)
    (hDate : resolveDate date st = some cd)
    (hParse : pyStrptimeAMDY cd = none) :
    processRow repl additional st
      (index :: date :: other_date :: game :: game_index :: v1 :: x1 :: x2 :: v2 :: tail) =
      .error .dateParse := by
  simp [processRow, hGraph, hIdx, hJoke, hDate, hParse]

/-! ## Claim theorems -/

/-- C9: processing the input row
`["42", "Mon, 03/04/2024", "", "TestGame", "1", "vod.example.com/a", "", "", ""]`
with no header skip (`skip_rows = 0`; the normalizer drops `skip_rows + 1`
leading rows, so one filler row precedes it) produces exactly one record
`{index: 42, date: "2024-03-04", part: 1, game: "TestGame", game_index: "1",
vod: {with_chat: "https://vod.example.com/a"}}`. -/
theorem claim_C9 :
    read_and_standardise 0 [] []
      [["", "", "", "", "", "", "", "", ""],
       ["42", "Mon, 03/04/2024", "", "TestGame", "1", "vod.example.com/a", "", "", ""]] =
    .ok [[("index", .vInt 42), ("date", .vStr "2024-03-04"), ("part", .vInt 1),
          ("game", .vStr "TestGame"), ("game_index", .vStr "1"),
          ("vod", .vMap [("with_chat", "https://vod.example.com/a")])]] := by
  decide

/-- C5 counterexample: the replacement table `[("ab", "a")]` satisfies the
claim's hypothesis — its only target `"ab"` does not occur in its only output
`"a"` — yet canonicalisation is not idempotent on `"abb"`: one application
gives `"ab"` (the replacement's trailing `"a"` fuses with the leftover `"b"`
into a fresh occurrence of the target), a second gives `"a"`. -/
theorem claim_C5_counterexample :
    (([("ab", "a")] : List (String × String)).all
      (fun p => ([("ab", "a")] : List (String × String)).all
        (fun q => !containsSub p.1.toList q.2.toList))) = true ∧
    canonicalise [("ab", "a")] (canonicalise [("ab", "a")] "abb") ≠
      canonicalise [("ab", "a")] "abb" := by
  decide

/-- C5 amended: for every replacement table and input string such that no
replacement target occurs in the once-canonicalised result, applying the Text
Canonicalizer twice yields the same result as applying it once.  (The claim's
original side condition — targets not occurring in any replacement's output —
is not sufficient, because a replacement's output can fuse with adjacent
input characters into a fresh occurrence of a target.) -/
theorem claim_C5_amended (rs : List (String × String)) (s : String)
    (h : ∀ p ∈ rs, containsSub p.1.toList (canonicalise rs s).toList = false) :
    canonicalise rs (canonicalise rs s) = canonicalise rs s :=
  canonicalise_of_no_targets rs (canonicalise rs s) h

theorem claim_C5_witness :
    canonicalise [("ab", "x")] (canonicalise [("ab", "x")] "zab") =
      canonicalise [("ab", "x")] "zab" :=
  claim_C5_amended [("ab", "x")] "zab" (by decide)

/-- C6: the Link Sanitizer yields nothing for an empty raw URL; for a
non-empty raw URL it yields a single entry under the given key whose value
begins with `https://` and contains no literal `=` character, and when the
input contained an `=` the value contains at least one `&#61;`. -/
theorem claim_C6 (key link : String) :
    (link = "" → wikify_link key link = []) ∧
    (link ≠ "" → ∃ s, wikify_link key link = [(key, s)] ∧
      pyStartsWith s "https://" = true ∧ '=' ∉ s.toList ∧
      ('=' ∈ link.toList → containsSub "&#61;".toList s.toList = true)) := by
  constructor
  · intro h
    simp [wikify_link, h]
  · intro h
    have hH : ('=' : Char) ∉ "https://".toList := by decide
    have hR : ('=' : Char) ∉ "&#61;".toList := by decide
    refine ⟨strReplace (if pyStartsWith link "https://" then link
        else "https://" ++ link) "=" "&#61;", ?_, ?_, ?_, ?_⟩
    · simp [wikify_link, h]
    · obtain ⟨rest, hrest⟩ : ∃ rest,
          (if pyStartsWith link "https://" then link
            else "https://" ++ link).toList = "https://".toList ++ rest := by
        by_cases hs : pyStartsWith link "https://" = true
        · obtain ⟨rest, hr⟩ := List.isPrefixOf_iff_prefix.mp hs
          exact ⟨rest, by rw [if_pos hs, ← hr]⟩
        · refine ⟨link.toList, ?_⟩
          rw [if_neg hs]
          exact String.data_append "https://" link
      show ("https://".toList).isPrefixOf (strReplace _ "=" "&#61;").toList = true
      have : (strReplace (if pyStartsWith link "https://" then link
          else "https://" ++ link) "=" "&#61;").toList =
          "https://".toList ++ pyReplaceAux ['='] "&#61;".toList rest 0 := by
        show pyReplace "=".toList "&#61;".toList _ = _
        rw [hrest]
        show pyReplaceAux ['='] "&#61;".toList ("https://".toList ++ rest) 0 = _
        exact pyReplaceAux_single_append hH rest
      rw [this]
      exact isPrefixOf_append_self _ _
    · show ('=' : Char) ∉ (strReplace _ "=" "&#61;").toList
      show ('=' : Char) ∉ pyReplace "=".toList "&#61;".toList _
      exact not_mem_pyReplaceAux_single hR _ 0
    · intro hmem
      have hlwp : ('=' : Char) ∈ (if pyStartsWith link "https://" then link
          else "https://" ++ link).toList := by
        by_cases hs : pyStartsWith link "https://" = true
        · rwa [if_pos hs]
        · rw [if_neg hs]
          show ('=' : Char) ∈ ("https://" ++ link).data
          rw [String.data_append]
          exact List.mem_append_right _ hmem
      show containsSub "&#61;".toList (pyReplace "=".toList "&#61;".toList _) = true
      exact containsSub_r_pyReplaceAux _ hlwp

/-- A row of empty fields, used only as the extra row the normalizer drops. -/
def fillerRow : List String := ["", "", "", "", "", "", "", "", ""]

/-- A plain data row: explicit index 42, a well-formed date, game `GameA`. -/
def sampleRowA : List String := ["42", "Mon, 01/01/2024", "", "GameA", "", "", "", "", ""]

/-- The record the normalizer emits for `sampleRowA` from the initial state. -/
def sampleRecA : Dict :=
  [("index", .vInt 42), ("date", .vStr "2024-01-01"), ("part", .vInt 1),
   ("game", .vStr "GameA"), ("game_index", .vStr ""), ("vod", .vMap [])]

/-- C3 counterexample: the override table entry `{42: {"index": 999}}` does
override the already-set `index` field — `**additional` is spread last in the
yielded dict literal, so override keys win over core keys.  The raw index
field `"42"` parses to 42, yet the emitted record carries `index = 999`. -/
theorem claim_C3_counterexample :
    pyInt "42" = some 42 ∧
    read_and_standardise 0 [] [(42, [("index", Value.vInt 999)])]
      [fillerRow, sampleRowA] =
      .ok [[("index", .vInt 999), ("date", .vStr "2024-01-01"), ("part", .vInt 1),
            ("game", .vStr "GameA"), ("game_index", .vStr ""), ("vod", .vMap [])]] := by
  decide

/-- C3 amended: provided the override entry's keys are distinct from the core
record fields (and from each other), merging the entry into the record
changes no field already set — every core field keeps its pre-merge value —
and the override's entries are appended after the core fields. -/
theorem claim_C3_amended (ci : Int) (iso : String) (part : Int)
    (game game_index : String) (vods : List (String × String)) (e : Dict)
    (hdisj : ∀ kv ∈ e, hasKey (coreFields ci iso part game game_index vods) kv.1 = false)
    (hnodup : (e.map Prod.fst).Nodup) :
    assocMerge (coreFields ci iso part game game_index vods) e =
      coreFields ci iso part game game_index vods ++ e ∧
    ∀ k, hasKey e k = false →
      assocFind (assocMerge (coreFields ci iso part game game_index vods) e) k =
        assocFind (coreFields ci iso part game game_index vods) k :=
  ⟨assocMerge_eq_append hdisj hnodup, fun _ hk => assocFind_merge_of_not_hasKey hk⟩

theorem claim_C3_witness :
    assocMerge (coreFields 42 "2024-01-01" 1 "GameA" "" []) [("guests", .vList ["a", "b"])] =
      coreFields 42 "2024-01-01" 1 "GameA" "" [] ++ [("guests", .vList ["a", "b"])] ∧
    ∀ k, hasKey [("guests", Value.vList ["a", "b"])] k = false →
      assocFind (assocMerge (coreFields 42 "2024-01-01" 1 "GameA" "" [])
          [("guests", .vList ["a", "b"])]) k =
        assocFind (coreFields 42 "2024-01-01" 1 "GameA" "" []) k :=
  claim_C3_amended 42 "2024-01-01" 1 "GameA" "" [] [("guests", .vList ["a", "b"])]
    (by decide) (by decide)

/-- C10: a row that passes the graph filter but is caught by the joke-entry
filter (resolved index below 300, game exactly `Signalis`) advances the
running part counter — reset to 1 on a non-blank index field, incremented on
a blank one — while leaving `previous_index` and `previous_date` untouched.
Consequently (second and third conjuncts, concrete runs) a following
blank-index row resolves its index and date from the most recent *emitted*
record: after `[42, GameA]` then a skipped `[99, Signalis]` row, the blank
row yields index 42 and GameA's date, not 99; and after a skipped blank
Signalis row the blank row's part jumps from 1 to 3, skipping 2. -/
theorem claim_C10 :
    (∀ (repl : List (String × String)) (additional : List (Int × Dict)) (st : NormSt)
       (index date other_date game game_index v1 x1 x2 v2 : String)
       (tail : List String) (ci : Int),
       graphFiltered index date other_date = false →
       resolveIndex index st = .ok (some ci) →
       ci < 300 → game = "Signalis" →
       processRow repl additional st
         (index :: date :: other_date :: game :: game_index :: v1 :: x1 :: x2 :: v2 :: tail) =
         .ok ({ st with part := nextPart index st }, none)) ∧
    read_and_standardise 0 [] []
      [fillerRow, sampleRowA,
       ["99", "Mon, 01/08/2024", "", "Signalis", "", "", "", "", ""],
       ["", "", "", "GameB", "", "", "", "", ""]] =
      .ok [sampleRecA,
           [("index", .vInt 42), ("date", .vStr "2024-01-01"), ("part", .vInt 2),
            ("game", .vStr "GameB"), ("game_index", .vStr ""), ("vod", .vMap [])]] ∧
    read_and_standardise 0 [] []
      [fillerRow, sampleRowA,
       ["", "", "", "Signalis", "", "", "", "", ""],
       ["", "", "", "GameB", "", "", "", "", ""]] =
      .ok [sampleRecA,
           [("index", .vInt 42), ("date", .vStr "2024-01-01"), ("part", .vInt 3),
            ("game", .vStr "GameB"), ("game_index", .vStr ""), ("vod", .vMap [])]] := by
  refine ⟨?_, by decide, by decide⟩
  intro repl additional st index date other_date game game_index v1 x1 x2 v2 tail ci
  intro hGraph hIdx hLt hGame
  have hLt' : decide (ci < 300) = true := decide_eq_true hLt
  have hGame' : (game == "Signalis") = true := by rw [hGame]; rfl
  simp [processRow, hGraph, hIdx, hLt', hGame']

theorem claim_C10_witness :
    processRow [] [] ⟨some 42, some "Mon, 01/01/2024", 1⟩
      ["99", "Mon, 01/08/2024", "", "Signalis", "", "", "", "", ""] =
      .ok ({ prev_index := some 42, prev_date := some "Mon, 01/01/2024", part := 1 }, none) :=
  claim_C10.1 [] [] ⟨some 42, some "Mon, 01/01/2024", 1⟩
    "99" "Mon, 01/08/2024" "" "Signalis" "" "" "" "" "" [] 99
    (by decide) (by decide) (by decide) rfl

/-- C7: (1) every emitted record's `date` field is the ISO `YYYY-MM-DD`
rendering of the carried-forward date string parsed with the fixed format
"abbreviated weekday, month/day/4-digit-year" (provided the override table
does not shadow the `date` key); (2) when a row survives both filters and its
carried-forward date string does not match that format, the normalizer raises
the date parse error instead of emitting anything; (3) a normalizer error
makes the whole pipeline return that error — no output line of any record is
produced. -/
theorem claim_C7 :
    (∀ (repl : List (String × String)) (additional : List (Int × Dict)) (st : NormSt)
       (index date other_date game game_index v1 x1 x2 v2 : String)
       (tail : List String) (st' : NormSt) (r : Dict),
       processRow repl additional st
         (index :: date :: other_date :: game :: game_index :: v1 :: x1 :: x2 :: v2 :: tail) =
         .ok (st', some r) →
       (∀ p ∈ additional, hasKey p.2 "date" = false) →
       ∃ cd ymd, resolveDate date st = some cd ∧ pyStrptimeAMDY cd = some ymd ∧
         assocFind r "date" = some (.vStr (formatISO ymd))) ∧
    (∀ (repl : List (String × String)) (additional : List (Int × Dict)) (st : NormSt)
       (index date other_date game game_index v1 x1 x2 v2 : String)
       (tail : List String) (ci : Int) (cd : String),
       graphFiltered index date other_date = false →
       resolveIndex index st = .ok (some ci) →
       (ci < 300 && game == "Signalis") = false →
       resolveDate date st = some cd →
       pyStrptimeAMDY cd = none →
       processRow repl additional st
         (index :: date :: other_date :: game :: game_index :: v1 :: x1 :: x2 :: v2 :: tail) =
         .error .dateParse) ∧
    (∀ (skip : Nat) (repl : List (String × String)) (additional : List (Int × Dict))
       (dsid : String) (colorOf : Dict → String) (rows : List (List String)) (e : Err),
       read_and_standardise skip repl additional rows = .error e →
       runPipeline skip repl additional dsid colorOf rows = .error e) := by
  refine ⟨?_, ?_, ?_⟩
  · intro repl additional st index date other_date game game_index v1 x1 x2 v2 tail st' r
    intro h hAdd
    obtain ⟨ci, cd, ymd, _, _, hDate, _, hY, _, hR⟩ := processRow_ok_some h
    refine ⟨cd, ymd, hDate, hY, ?_⟩
    have haddkey : hasKey (((additional.find? (fun kv => kv.1 == ci)).map
        (fun kv => kv.2)).getD []) "date" = false := by
      cases hf : additional.find? (fun kv => kv.1 == ci) with
      | none => simp [hf]; rfl
      | some p =>
        simp only [hf, Option.map_some', Option.getD_some]
        exact hAdd p (List.mem_of_find?_eq_some hf)
    rw [hR, assocFind_merge_of_not_hasKey haddkey]
    rfl
  · intro repl additional st index date other_date game game_index v1 x1 x2 v2 tail ci cd
    intro hGraph hIdx hJoke hDate hParse
    exact processRow_dateParse hGraph hIdx hJoke hDate hParse
  · intro skip repl additional dsid colorOf rows e h
    simp [runPipeline, h]

theorem claim_C7_witness :
    (∃ cd ymd, resolveDate "Mon, 01/01/2024" initSt = some cd ∧
      pyStrptimeAMDY cd = some ymd ∧
      assocFind sampleRecA "date" = some (.vStr (formatISO ymd))) ∧
    processRow [] [] initSt ["7", "Nope", "", "GameA", "", "", "", "", ""] =
      .error .dateParse ∧
    runPipeline 0 [] [] "SID" (fun _ => "blue")
      [fillerRow, ["7", "Nope", "", "GameA", "", "", "", "", ""]] = .error .dateParse :=
  ⟨claim_C7.1 [] [] initSt "42" "Mon, 01/01/2024" "" "GameA" "" "" "" "" "" []
      ⟨some 42, some "Mon, 01/01/2024", 1⟩ sampleRecA (by decide) (by decide),
   claim_C7.2.1 [] [] initSt "7" "Nope" "" "GameA" "" "" "" "" "" [] 7 "Nope"
      (by decide) (by decide) (by decide) (by decide) (by decide),
   claim_C7.2.2 0 [] [] "SID" (fun _ => "blue")
      [fillerRow, ["7", "Nope", "", "GameA", "", "", "", "", ""]] .dateParse (by decide)⟩

/-- C1: for every raw row the normalizer emits as a record, a non-blank
index field makes the record's `index` the integer parsing of that field,
and a blank one makes it the carry-forward value `previous_index` — which,
by the post-state conjuncts here and the skip conjunct (second block: a
skipped row leaves `previous_index`/`previous_date` untouched), is exactly
the resolved index of the previous *emitted* record.  The raw date string is
carried forward symmetrically, unparsed, into the state.  (The record's
`index` lookup assumes the override table does not shadow the `index` key;
shadowing is the subject of C3.) -/
theorem claim_C1 :
    (∀ (repl : List (String × String)) (additional : List (Int × Dict)) (st : NormSt)
       (index date other_date game game_index v1 x1 x2 v2 : String)
       (tail : List String) (st' : NormSt) (r : Dict),
       processRow repl additional st
         (index :: date :: other_date :: game :: game_index :: v1 :: x1 :: x2 :: v2 :: tail) =
         .ok (st', some r) →
       (∀ p ∈ additional, hasKey p.2 "index" = false) →
       ((index ≠ "" → ∃ n, pyInt index = some n ∧
           assocFind r "index" = some (.vInt n) ∧ st'.prev_index = some n) ∧
        (index = "" → ∃ n, st.prev_index = some n ∧
           assocFind r "index" = some (.vInt n) ∧ st'.prev_index = some n) ∧
        (date ≠ "" → st'.prev_date = some date) ∧
        (date = "" → st'.prev_date = st.prev_date))) ∧
    (∀ (repl : List (String × String)) (additional : List (Int × Dict)) (st : NormSt)
       (index date other_date game game_index v1 x1 x2 v2 : String)
       (tail : List String) (st' : NormSt),
       processRow repl additional st
         (index :: date :: other_date :: game :: game_index :: v1 :: x1 :: x2 :: v2 :: tail) =
         .ok (st', none) →
       st'.prev_index = st.prev_index ∧ st'.prev_date = st.prev_date) := by
  constructor
  · intro repl additional st index date other_date game game_index v1 x1 x2 v2 tail st' r
    intro h hAdd
    obtain ⟨ci, cd, ymd, _, hIdx, hDate, _, _, hSt, hR⟩ := processRow_ok_some h
    have haddkey : hasKey (((additional.find? (fun kv => kv.1 == ci)).map
        (fun kv => kv.2)).getD []) "index" = false := by
      cases hf : additional.find? (fun kv => kv.1 == ci) with
      | none => simp [hf]; rfl
      | some p =>
        simp only [hf, Option.map_some', Option.getD_some]
        exact hAdd p (List.mem_of_find?_eq_some hf)
    have hfind : assocFind r "index" = some (.vInt ci) := by
      rw [hR, assocFind_merge_of_not_hasKey haddkey]; rfl
    refine ⟨?_, ?_, ?_, ?_⟩
    · intro hne
      unfold resolveIndex at hIdx
      rw [if_pos hne] at hIdx
      cases hpi : pyInt index with
      | none => rw [hpi] at hIdx; simp at hIdx
      | some n =>
        rw [hpi] at hIdx
        simp only [Except.ok.injEq, Option.some.injEq] at hIdx
        subst hIdx
        exact ⟨n, rfl, hfind, by rw [hSt]⟩
    · intro he
      unfold resolveIndex at hIdx
      rw [if_neg (fun hn => hn he)] at hIdx
      simp only [Except.ok.injEq] at hIdx
      exact ⟨ci, hIdx, hfind, by rw [hSt]⟩
    · intro hne
      unfold resolveDate at hDate
      rw [if_pos hne] at hDate
      rw [hSt]
      simp only [Option.some.injEq] at hDate
      rw [hDate]
    · intro he
      unfold resolveDate at hDate
      rw [if_neg (fun hn => hn he)] at hDate
      rw [hSt, ← hDate]
  · intro repl additional st index date other_date game game_index v1 x1 x2 v2 tail st' h
    exact ⟨(processRow_ok_none h).1, (processRow_ok_none h).2.1⟩

theorem claim_C1_witness :
    ((("42" : String) ≠ "" → ∃ n, pyInt "42" = some n ∧
        assocFind sampleRecA "index" = some (.vInt n) ∧
        (⟨some 42, some "Mon, 01/01/2024", 1⟩ : NormSt).prev_index = some n) ∧
     (("42" : String) = "" → ∃ n, initSt.prev_index = some n ∧
        assocFind sampleRecA "index" = some (.vInt n) ∧
        (⟨some 42, some "Mon, 01/01/2024", 1⟩ : NormSt).prev_index = some n) ∧
     (("Mon, 01/01/2024" : String) ≠ "" →
        (⟨some 42, some "Mon, 01/01/2024", 1⟩ : NormSt).prev_date = some "Mon, 01/01/2024") ∧
     (("Mon, 01/01/2024" : String) = "" →
        (⟨some 42, some "Mon, 01/01/2024", 1⟩ : NormSt).prev_date = initSt.prev_date)) ∧
    (initSt.prev_index = initSt.prev_index ∧ initSt.prev_date = initSt.prev_date) :=
  ⟨claim_C1.1 [] [] initSt "42" "Mon, 01/01/2024" "" "GameA" "" "" "" "" "" []
      ⟨some 42, some "Mon, 01/01/2024", 1⟩ sampleRecA (by decide) (by decide),
   claim_C1.2 [] [] initSt "" "Mon, 01/01/2024" "" "GameA" "" "" "" "" "" [] initSt
      (by decide)⟩

/-- The record for a continuation row of `sampleRowA` with game `GameB`. -/
def sampleRecB : Dict :=
  [("index", .vInt 42), ("date", .vStr "2024-01-01"), ("part", .vInt 2),
   ("game", .vStr "GameB"), ("game_index", .vStr ""), ("vod", .vMap [])]

/-- The Boolean "this record has `part > 1` and carries index `v`" test used
to state the multipart-set characterization. -/
def partGtOneAt (v : Value) (r : Dict) : Bool :=
  (match assocFind r "part" with
   | some (Value.vInt p) => decide (p > 1)
   | _ => false) && (assocFind r "index" == some v)

/-- C2 counterexample: the record set produced from one explicit row and one
continuation row has exactly one record with `part > 1` carrying index 42 —
not more than one — yet the renderer's multipart set contains 42, because the
code collects an index as soon as a single record with `part > 1` has it. -/
theorem claim_C2_counterexample :
    read_and_standardise 0 [] []
      [fillerRow, sampleRowA, ["", "", "", "GameB", "", "", "", "", ""]] =
      .ok [sampleRecA, sampleRecB] ∧
    multipartE [sampleRecA, sampleRecB] = .ok [.vInt 42] ∧
    ([sampleRecA, sampleRecB].countP (partGtOneAt (.vInt 42))) = 1 ∧
    ([Value.vInt 42].contains (Value.vInt 42)) = true := by
  decide

/-- C2 amended: the multipart set is computed once, as a function of the full
record set, and contains an index exactly when AT LEAST ONE record with
`part > 1` carries that index (not "more than one"). -/
theorem claim_C2_amended :
    ∀ (rows : List Dict) (mp : List Value), multipartE rows = .ok mp →
      ∀ v : Value, mp.contains v = rows.any (partGtOneAt v) := by
  intro rows
  induction rows with
  | nil =>
    intro mp h v
    simp only [multipartE] at h
    cases h
    simp
  | cons r rs ih =>
    intro mp h v
    simp only [multipartE] at h
    split at h
    · cases h
    next p heqP =>
      split at h
      · cases h
      next gt heqG =>
        have hfindP : assocFind r "part" = some p := by
          unfold getItem at heqP
          split at heqP
          next hv => cases heqP; exact hv
          · cases heqP
        cases p with
        | vInt n =>
          have hgt : gt = decide (n > 1) := by
            simp only [valueGtOne, Except.ok.injEq] at heqG
            exact heqG.symm
          split at h
          next hgtT =>
            split at h
            · cases h
            next i heqI =>
              have hfindI : assocFind r "index" = some i := by
                unfold getItem at heqI
                split at heqI
                next hv => cases heqI; exact hv
                · cases heqI
              split at h
              · cases h
              next rest heqR =>
                cases h
                simp only [List.any_cons, List.contains_cons]
                rw [ih rest heqR v]
                have hn : decide (n > 1) = true := hgt ▸ hgtT
                have hpred : partGtOneAt v r = (i == v) := by
                  simp only [partGtOneAt, hfindP, hfindI, hn, Bool.true_and]
                  rfl
                have hcomm : (v == i) = (i == v) := by
                  by_cases hv : v = i
                  · subst hv; rfl
                  · rw [beq_eq_false_iff_ne.mpr hv, beq_eq_false_iff_ne.mpr (Ne.symm hv)]
                rw [hpred, hcomm]
          next hgtF =>
            have hn : decide (n > 1) = false := by
              rw [← hgt]
              cases gt with
              | true => exact absurd rfl hgtF
              | false => rfl
            have hpred : partGtOneAt v r = false := by
              simp only [partGtOneAt, hfindP, hn, Bool.false_and]
            rw [ih mp h v, List.any_cons, hpred, Bool.false_or]
        | vStr s => simp [valueGtOne] at heqG
        | vMap m => simp [valueGtOne] at heqG
        | vList l => simp [valueGtOne] at heqG

theorem claim_C2_witness :
    ([Value.vInt 42] : List Value).contains (Value.vInt 42) =
      [sampleRecA, sampleRecB].any (partGtOneAt (Value.vInt 42)) :=
  claim_C2_amended [sampleRecA, sampleRecB] [Value.vInt 42] (by decide) (Value.vInt 42)

/-- The name of a rendered template argument: everything before the first
`=`, which is how the receiving template parses `name=value`. -/
def argName (a : String) : String := ⟨a.toList.takeWhile (fun c => !(c == '='))⟩

theorem digitChar_isDigit {n : Nat} (h : n < 10) : (Nat.digitChar n).isDigit = true := by
  interval_cases n <;> decide

theorem toDigitsCore_digits :
    ∀ (fuel n : Nat) (ds : List Char), (∀ c ∈ ds, c.isDigit = true) →
      ∀ c ∈ Nat.toDigitsCore 10 fuel n ds, c.isDigit = true := by
  intro fuel
  induction fuel with
  | zero => intro n ds hds c hc; exact hds c hc
  | succ f ih =>
    intro n ds hds c hc
    simp only [Nat.toDigitsCore] at hc
    have hcons : ∀ x ∈ Nat.digitChar (n % 10) :: ds, x.isDigit = true := by
      intro x hx
      rcases List.mem_cons.mp hx with h1 | h1
      · subst h1; exact digitChar_isDigit (Nat.mod_lt _ (by omega))
      · exact hds x h1
    split at hc
    · exact hcons c hc
    · exact ih (n / 10) _ hcons c hc

theorem repr_isDigit (n : Nat) : ∀ c ∈ (Nat.repr n).toList, c.isDigit = true :=
  toDigitsCore_digits (n + 1) n [] (by intro c hc; cases hc)

theorem toDigitsCore_ne_nil :
    ∀ (fuel n : Nat) (ds : List Char), fuel ≠ 0 → Nat.toDigitsCore 10 fuel n ds ≠ [] := by
  intro fuel
  induction fuel with
  | zero => intro n ds h; exact absurd rfl h
  | succ f ih =>
    intro n ds _
    simp only [Nat.toDigitsCore]
    split
    · exact List.cons_ne_nil _ _
    · cases hf : f with
      | zero => subst hf; simp only [Nat.toDigitsCore]; exact List.cons_ne_nil _ _
      | succ f' => subst hf; exact ih (n / 10) _ (by omega)

theorem repr_toList_ne_nil (n : Nat) : (Nat.repr n).toList ≠ [] :=
  toDigitsCore_ne_nil (n + 1) n [] (by omega)

theorem takeWhile_append_of_no_eq {p : List Char} (hp : '=' ∉ p) (s : List Char) :
    (p ++ s).takeWhile (fun c => !(c == '=')) = p ++ s.takeWhile (fun c => !(c == '=')) := by
  induction p with
  | nil => rfl
  | cons c cs ih =>
    have hc : (c == '=') = false := by
      cases hce : (c == '=') with
      | false => rfl
      | true => exact absurd (eq_of_beq hce ▸ List.mem_cons_self c cs) hp
    have hcs : '=' ∉ cs := fun h => hp (List.mem_cons_of_mem c h)
    simp only [List.cons_append, List.takeWhile_cons, hc, Bool.not_false, if_true, ih hcs]

theorem argName_scalar_eq {k : String} (hk : '=' ∉ k.toList) (v : String) :
    argName (k ++ "=" ++ v) = k := by
  unfold argName
  have h1 : (k ++ "=" ++ v).toList = k.toList ++ ('=' :: v.toList) := by
    show (k ++ "=" ++ v).data = _
    rw [String.data_append, String.data_append, List.append_assoc]
    rfl
  rw [h1, takeWhile_append_of_no_eq hk]
  have h2 : ('=' :: v.toList).takeWhile (fun c => !(c == '=')) = [] := rfl
  rw [h2, List.append_nil]
  exact String.ext rfl

theorem argName_map_eq {k : String} (hk : '=' ∉ k.toList) (sk sv : String) :
    ∃ w, argName (k ++ "_" ++ sk ++ "=" ++ sv) = ⟨k.toList ++ '_' :: w⟩ := by
  refine ⟨(sk.toList ++ '=' :: sv.toList).takeWhile (fun c => !(c == '=')), ?_⟩
  unfold argName
  have h1 : (k ++ "_" ++ sk ++ "=" ++ sv).toList =
      (k.toList ++ ['_']) ++ (sk.toList ++ '=' :: sv.toList) := by
    show (k ++ "_" ++ sk ++ "=" ++ sv).data = _
    simp only [String.data_append, List.append_assoc]
    rfl
  have hp : '=' ∉ k.toList ++ ['_'] := by
    intro h
    rcases List.mem_append.mp h with h1 | h1
    · exact hk h1
    · exact absurd (List.mem_singleton.mp h1) (by decide)
  rw [h1, takeWhile_append_of_no_eq hp]
  exact congrArg String.mk (by rw [List.append_assoc]; rfl)

theorem argName_digits_eq {k : String} (hk : '=' ∉ k.toList) (mid v : String)
    (hmid : ∀ c ∈ mid.toList, c.isDigit = true) :
    argName (k ++ mid ++ "=" ++ v) = ⟨k.toList ++ mid.toList⟩ := by
  unfold argName
  have h1 : (k ++ mid ++ "=" ++ v).toList =
      (k.toList ++ mid.toList) ++ ('=' :: v.toList) := by
    show (k ++ mid ++ "=" ++ v).data = _
    rw [String.data_append, String.data_append, String.data_append,
      List.append_assoc]
    rfl
  have hp : '=' ∉ k.toList ++ mid.toList := by
    intro h
    rcases List.mem_append.mp h with h1 | h1
    · exact hk h1
    · have := hmid '=' h1
      exact absurd this (by decide)
  rw [h1, takeWhile_append_of_no_eq hp]
  have h2 : ('=' :: v.toList).takeWhile (fun c => !(c == '=')) = [] := rfl
  rw [h2, List.append_nil]

theorem mk_append_digits_ne {k : String} {w : List Char}
    (hds : ∀ c ∈ w, c.isDigit = true) (hne : w ≠ []) {t : String} {c : Char}
    (hl : t.toList.getLast? = some c) (hc : c.isDigit = false) :
    (⟨k.toList ++ w⟩ : String) ≠ t := by
  intro heq
  have h1 : k.toList ++ w = t.toList := congrArg String.data heq
  rcases List.eq_nil_or_concat w with h | ⟨w', a, hw⟩
  · exact hne h
  · subst hw
    have h2 : (k.toList ++ w'.concat a).getLast? = some a := by
      rw [List.concat_eq_append, ← List.append_assoc]
      exact List.getLast?_concat _
    rw [h1, hl] at h2
    injection h2 with h3
    have ha : a ∈ w'.concat a := by
      rw [List.concat_eq_append]
      exact List.mem_append_right _ (List.mem_cons_self _ _)
    have hd := hds a ha
    rw [← h3] at hd
    rw [hd] at hc
    cases hc

theorem mk_underscore_ne_part (k : String) (w : List Char) :
    (⟨k.toList ++ '_' :: w⟩ : String) ≠ "part" := by
  intro heq
  have h1 : k.toList ++ '_' :: w = "part".toList := congrArg String.data heq
  have h2 : ('_' : Char) ∈ "part".toList := by
    rw [← h1]
    exact List.mem_append_right _ (List.mem_cons_self _ _)
  exact absurd h2 (by decide)

theorem mk_underscore_eq_last_part {k : String} {w : List Char}
    (heq : (⟨k.toList ++ '_' :: w⟩ : String) = "last_part") : k = "last" := by
  have h1 : k.toList ++ '_' :: w = "last_part".toList := congrArg String.data heq
  obtain ⟨nn, hnn⟩ : ∃ nn, k.toList.length = nn := ⟨_, rfl⟩
  have htake : "last_part".toList.take nn = k.toList := by
    rw [← hnn, ← h1]
    exact List.take_left _ _
  have hget : ("last_part".toList)[nn]? = some '_' := by
    rw [← hnn, ← h1, List.getElem?_append_right (le_refl _)]
    simp
  have hlen : nn ≤ 8 := by
    have := congrArg List.length h1
    simp only [List.length_append, List.length_cons] at this
    have h9 : "last_part".toList.length = 9 := rfl
    omega
  interval_cases nn
  all_goals first
    | exact absurd hget (by decide)
    | exact String.ext (by rw [show k.data = k.toList from rfl, ← htake]; rfl)

theorem mem_assocInsert {α β : Type} [BEq α] [LawfulBEq α] {d : List (α × β)} {k : α}
    {v : β} {kv : α × β} (h : kv ∈ assocInsert d k v) : kv.1 = k ∨ kv ∈ d := by
  unfold assocInsert at h
  split at h
  · obtain ⟨p, hp, hpe⟩ := List.mem_map.mp h
    by_cases hpk : (p.1 == k) = true
    · rw [if_pos hpk] at hpe
      left
      rw [← hpe]
    · rw [if_neg hpk] at hpe
      right
      exact hpe ▸ hp
  · rcases List.mem_append.mp h with h1 | h1
    · right; exact h1
    · left
      rw [List.mem_singleton.mp h1]

theorem hasKey_filter_self {β : Type} {d : List (String × β)} {k : String} :
    hasKey (d.filter (fun p => !(p.1 == k))) k = false := by
  cases hb : hasKey (d.filter (fun p => !(p.1 == k))) k with
  | false => rfl
  | true =>
    exfalso
    simp only [hasKey, List.any_eq_true] at hb
    obtain ⟨p, hp, hpk⟩ := hb
    have h2 := (List.mem_filter.mp hp).2
    rw [hpk] at h2
    cases h2

theorem hasKey_filter_false {β : Type} {d : List (String × β)} {f : String × β → Bool}
    {k : String} (h : hasKey d k = false) : hasKey (d.filter f) k = false := by
  cases hb : hasKey (d.filter f) k with
  | false => rfl
  | true =>
    exfalso
    simp only [hasKey, List.any_eq_true] at hb
    obtain ⟨p, hp, hpk⟩ := hb
    have h2 : hasKey d k = true := by
      simp only [hasKey, List.any_eq_true]
      exact ⟨p, (List.mem_filter.mp hp).1, hpk⟩
    rw [h] at h2
    cases h2

theorem hasKey_eq_false_of_forall {β : Type} {d : List (String × β)} {k : String}
    (h : ∀ kv ∈ d, kv.1 ≠ k) : hasKey d k = false := by
  cases hb : hasKey d k with
  | false => rfl
  | true =>
    exfalso
    simp only [hasKey, List.any_eq_true] at hb
    obtain ⟨p, hp, hpk⟩ := hb
    exact h p hp (eq_of_beq hpk)

/-- Arguments flattened from a field whose key avoids `=` characters and is
none of `part`, `last_part`, `last` can never be named `part` or `last_part`:
scalars and sequences keep the key (possibly followed by digits), and mapping
entries splice `_subkey` in, which cannot spell `part` and spells `last_part`
only from the excluded key `last`. -/
theorem argName_as_template_argument {k : String} (hkeq : '=' ∉ k.toList)
    (hpart : k ≠ "part") (hlp : k ≠ "last_part") (hlast : k ≠ "last") :
    ∀ (val : Value), ∀ a ∈ as_template_argument k val,
      argName a ≠ "part" ∧ argName a ≠ "last_part" := by
  intro val a ha
  cases val with
  | vInt n =>
    simp only [as_template_argument, List.mem_singleton] at ha
    subst ha
    rw [argName_scalar_eq hkeq]
    exact ⟨hpart, hlp⟩
  | vStr s =>
    simp only [as_template_argument, List.mem_singleton] at ha
    subst ha
    rw [argName_scalar_eq hkeq]
    exact ⟨hpart, hlp⟩
  | vMap m =>
    simp only [as_template_argument, List.mem_map] at ha
    obtain ⟨⟨sk, sv⟩, _, hae⟩ := ha
    subst hae
    obtain ⟨w, hw⟩ := argName_map_eq hkeq sk sv
    rw [hw]
    exact ⟨mk_underscore_ne_part k w, fun he => hlast (mk_underscore_eq_last_part he)⟩
  | vList l =>
    simp only [as_template_argument, List.mem_map] at ha
    obtain ⟨⟨i, v⟩, _, hae⟩ := ha
    subst hae
    by_cases hi : i > 0
    · rw [if_pos hi, argName_digits_eq hkeq (Nat.repr (i + 1)) v (repr_isDigit (i + 1))]
      constructor
      · exact mk_append_digits_ne (repr_isDigit _) (repr_toList_ne_nil _)
          (show "part".toList.getLast? = some 't' from rfl) (by decide)
      · exact mk_append_digits_ne (repr_isDigit _) (repr_toList_ne_nil _)
          (show "last_part".toList.getLast? = some 't' from rfl) (by decide)
    · rw [if_neg hi, argName_digits_eq hkeq "" v (by intro c hc; cases hc)]
      have hmk : (⟨k.toList ++ ("" : String).toList⟩ : String) = k :=
        String.ext (by simp [String.toList])
      rw [hmk]
      exact ⟨hpart, hlp⟩

/-- The template-argument dict the renderer builds for `sampleRecA` when its
index is not multipart: `color` added, `part` deleted. -/
def c8ta : Dict :=
  [("index", .vInt 42), ("date", .vStr "2024-01-01"),
   ("game", .vStr "GameA"), ("game_index", .vStr ""), ("vod", .vMap []),
   ("color", .vStr "blue")]

/-- C8: a record whose index is not in the multipart set renders with no
`part` and no `last_part` field: the `part` key is deleted, no `last_part`
flag is added, and consequently no argument on the rendered line is named
`part` or `last_part` (arguments are named by everything before their first
`=`; the key hypotheses mirror what normalized records look like — keys
contain no `=` and do not use the reserved names `last_part` / `last`). -/
theorem claim_C8 (multipart : List Value) (games : List (Value × String))
    (prev : Option Value) (row : Dict) (iv : Value) (ta : Dict)
    (hta : templateArgsFor multipart games prev row = .ok ta)
    (hidx : getItem row "index" = .ok iv)
    (hmp : multipart.contains iv = false)
    (hkeys : ∀ kv ∈ row, '=' ∉ (kv.1 : String).toList ∧ kv.1 ≠ "last_part" ∧ kv.1 ≠ "last") :
    hasKey ta "part" = false ∧ hasKey ta "last_part" = false ∧
    ∀ a ∈ argsOf ta, argName a ≠ "part" ∧ argName a ≠ "last_part" := by
  unfold templateArgsFor at hta
  split at hta
  · cases hta
  next index0 heqI =>
    have hio : index0 = iv := by
      have h := heqI.symm.trans hidx
      injection h
    subst hio
    split at hta
    · cases hta
    next g heqG =>
      split at hta
      · cases hta
      next color heqC =>
        rw [hmp] at hta
        simp only [Bool.not_false, if_true] at hta
        unfold delItem at hta
        split at hta
        · cases hta
          refine ⟨hasKey_filter_self, ?_, ?_⟩
          · apply hasKey_filter_false
            rw [hasKey_insert_of_ne (show (("color" : String) == "last_part") = false by decide)]
            exact hasKey_eq_false_of_forall (fun kv hkv => (hkeys kv hkv).2.1)
          · intro a ha
            simp only [argsOf] at ha
            obtain ⟨kv, hkv, hain⟩ := List.mem_flatMap.mp ha
            have hkv1 := (List.mem_filter.mp hkv).1
            obtain ⟨hkv2, hkvnp⟩ := List.mem_filter.mp hkv1
            have hknotpart : kv.1 ≠ "part" := by
              intro he
              rw [he] at hkvnp
              simp at hkvnp
            rcases mem_assocInsert hkv2 with hc | hrow
            · refine argName_as_template_argument ?_ hknotpart ?_ ?_ kv.2 a hain <;>
                rw [hc] <;> decide
            · obtain ⟨h1, h2, h3⟩ := hkeys kv hrow
              exact argName_as_template_argument h1 hknotpart h2 h3 kv.2 a hain
        · cases hta

theorem claim_C8_witness :
    hasKey c8ta "part" = false ∧ hasKey c8ta "last_part" = false ∧
    ∀ a ∈ argsOf c8ta, argName a ≠ "part" ∧ argName a ≠ "last_part" :=
  claim_C8 [] [(Value.vStr "GameA", "blue")] none sampleRecA (.vInt 42) c8ta
    (by decide) (by decide) (by decide) (by decide)

/-- The index value of a record, for stating positional renderer facts
(total: records without an `index` key default to 0, but every hypothesis
used below guarantees the key is present). -/
def idxD (r : Dict) : Value := (assocFind r "index").getD (Value.vInt 0)

/-- Per-entry flag characterization: when the row itself carries no
`last_part` key, the built `template_args` has one exactly when the row's
index is multipart and differs from the previous iterated index. -/
theorem templateArgsFor_last_part {mp : List Value} {games : List (Value × String)}
    {prev : Option Value} {row : Dict} {iv : Value} {ta : Dict}
    (hta : templateArgsFor mp games prev row = .ok ta)
    (hidx : getItem row "index" = .ok iv)
    (hlp : hasKey row "last_part" = false) :
    hasKey ta "last_part" = (mp.contains iv && !(prev == some iv)) := by
  unfold templateArgsFor at hta
  split at hta
  · cases hta
  next index0 heqI =>
    have hio : index0 = iv := by
      have h := heqI.symm.trans hidx
      injection h
    subst hio
    split at hta
    · cases hta
    next g heqG =>
      split at hta
      · cases hta
      next color heqC =>
        split at hta
        next hmpF =>
          have hmp : mp.contains index0 = false := by
            cases hb : mp.contains index0 with
            | false => rfl
            | true => rw [hb] at hmpF; cases hmpF
          replace hta : delItem (assocInsert row "color" (Value.vStr color)) "part" =
              .ok ta := hta
          unfold delItem at hta
          split at hta
          · cases hta
            rw [hmp, Bool.false_and]
            apply hasKey_filter_false
            rw [hasKey_insert_of_ne (show (("color" : String) == "last_part") = false by decide)]
            exact hlp
          · cases hta
        next hmpT =>
          have hmp : mp.contains index0 = true := by
            cases hb : mp.contains index0 with
            | true => rfl
            | false => rw [hb] at hmpT; exact absurd rfl hmpT
          replace hta : Except.ok (ε := Err)
              (if !(prev == some index0) then
                assocInsert (assocInsert row "color" (Value.vStr color)) "last_part" (Value.vInt 1)
              else assocInsert row "color" (Value.vStr color)) = .ok ta := hta
          cases hta
          rw [hmp, Bool.true_and]
          by_cases hp : (prev == some index0) = true
          · simp only [hp, Bool.not_true, Bool.false_eq_true, if_false]
            rw [hasKey_insert_of_ne (show (("color" : String) == "last_part") = false by decide)]
            exact hlp
          · have hp2 : (prev == some index0) = false := by
              cases hb : (prev == some index0) with
              | false => rfl
              | true => exact absurd hb hp
            simp only [hp2, Bool.not_false, if_true]
            exact hasKey_insert_self _ _ _

/-- A continuation row (blank index and date) for game `GameA`. -/
def contRowA : List String := ["", "", "", "GameA", "", "", "", "", ""]

/-- A CSV input whose index 42 recurs non-contiguously: a two-part block of
42, then stream 50, then a three-part block of 42 again. -/
def c4csv : List (List String) :=
  [fillerRow, sampleRowA, contRowA,
   ["50", "Mon, 01/08/2024", "", "GameB", "", "", "", "", ""],
   ["42", "Mon, 01/15/2024", "", "GameA", "", "", "", "", ""],
   contRowA, contRowA]

/-- A normalized record with the given index, ISO date, part and game. -/
def mkRec (i : Int) (d : String) (p : Int) (g : String) : Dict :=
  [("index", .vInt i), ("date", .vStr d), ("part", .vInt p),
   ("game", .vStr g), ("game_index", .vStr ""), ("vod", .vMap [])]

/-- The six records the normalizer emits for `c4csv`. -/
def c4recs : List Dict :=
  [mkRec 42 "2024-01-01" 1 "GameA", mkRec 42 "2024-01-01" 2 "GameA",
   mkRec 50 "2024-01-08" 1 "GameB", mkRec 42 "2024-01-15" 1 "GameA",
   mkRec 42 "2024-01-15" 2 "GameA", mkRec 42 "2024-01-15" 3 "GameA"]

/-- C4 counterexample: on `c4csv`, where index 42 recurs non-contiguously,
the renderer flags TWO entries `last_part = 1` (iteration positions 0 and 4
over the reversed records), and the one at position 4 is the `part = 2`
record of the first 42-block even though another record with index 42 has
`part = 3`.  So "the record flagged `last_part=1` has the numerically highest
`part` value among records sharing that index" fails: the flag only marks the
final record of a contiguous same-index run. -/
theorem claim_C4_counterexample :
    read_and_standardise 0 [] [] c4csv = .ok c4recs ∧
    multipartE c4recs = .ok [.vInt 42, .vInt 42, .vInt 42] ∧
    buildGames (fun _ => "c") [] c4recs =
      .ok [(Value.vStr "GameA", "c"), (Value.vStr "GameB", "c")] ∧
    (renderSteps [.vInt 42, .vInt 42, .vInt 42]
        [(Value.vStr "GameA", "c"), (Value.vStr "GameB", "c")] none
        c4recs.reverse).map (fun steps => steps.map (fun p => hasKey p.1 "last_part")) =
      .ok [true, false, false, false, true, false] ∧
    c4recs.reverse.get? 4 = some (mkRec 42 "2024-01-01" 2 "GameA") ∧
    mkRec 42 "2024-01-15" 3 "GameA" ∈ c4recs ∧
    assocFind (mkRec 42 "2024-01-01" 2 "GameA") "index" = some (.vInt 42) ∧
    assocFind (mkRec 42 "2024-01-15" 3 "GameA") "index" = some (.vInt 42) ∧
    assocFind (mkRec 42 "2024-01-01" 2 "GameA") "part" = some (.vInt 2) ∧
    assocFind (mkRec 42 "2024-01-15" 3 "GameA") "part" = some (.vInt 3) ∧
    (2 : Int) < 3 := by
  decide

theorem idxD_of_getItem {row : Dict} {i : Value} (h : getItem row "index" = .ok i) :
    idxD row = i := by
  unfold getItem at h
  split at h
  next hv =>
    cases h
    unfold idxD
    rw [hv]
    rfl
  · cases h

/-- C4 amended: in the renderer's reverse-order iteration, the `last_part = 1`
flag is set on an entry exactly when the entry's index is in the multipart set
and differs from the immediately preceding iterated entry's index (the first
iterated entry — the chronologically last record — counts as differing, its
predecessor being `None`).  Equivalently, after undoing the reversal, a
flagged record is the final record of a maximal run of consecutive same-index
records.  The claim's further assertion that a flagged record carries the
numerically highest `part` among ALL records sharing its index fails when an
index recurs non-contiguously (see the counterexample): the flag only marks
run-final records. -/
theorem claim_C4_amended :
    ∀ (mp : List Value) (games : List (Value × String)) (l : List Dict)
      (prev : Option Value) (steps : List (Dict × String)),
      renderSteps mp games prev l = .ok steps →
      (∀ r ∈ l, hasKey r "last_part" = false) →
      steps.length = l.length ∧
      ∀ (k : Nat) (hk : k < l.length) (hk2 : k < steps.length),
        hasKey (steps.get ⟨k, hk2⟩).1 "last_part" =
          (mp.contains (idxD (l.get ⟨k, hk⟩)) &&
           !((if k = 0 then prev else (l.get? (k - 1)).map idxD) ==
             some (idxD (l.get ⟨k, hk⟩)))) := by
  intro mp games l
  induction l with
  | nil =>
    intro prev steps h _
    simp only [renderSteps] at h
    cases h
    exact ⟨rfl, fun k hk _ => absurd hk (by simp)⟩
  | cons r rest ih =>
    intro prev steps h hlp
    simp only [renderSteps] at h
    split at h
    · cases h
    next ta heqT =>
      split at h
      · cases h
      next i heqI =>
        split at h
        · cases h
        next rs2 heqR =>
          cases h
          have hlpr : hasKey r "last_part" = false := hlp r (List.mem_cons_self r rest)
          have hlps : ∀ q ∈ rest, hasKey q "last_part" = false :=
            fun q hq => hlp q (List.mem_cons_of_mem r hq)
          obtain ⟨ihlen, ihflag⟩ := ih (some i) rs2 heqR hlps
          refine ⟨by simp [ihlen], ?_⟩
          intro k hk hk2
          cases k with
          | zero =>
            have hs0 : (((ta, entryLine ta) :: rs2).get ⟨0, hk2⟩).1 = ta := rfl
            have hg0 : (r :: rest).get ⟨0, hk⟩ = r := rfl
            rw [hs0, hg0, templateArgsFor_last_part heqT heqI hlpr,
              idxD_of_getItem heqI, if_pos rfl]
          | succ k2 =>
            have hs : ((ta, entryLine ta) :: rs2).get ⟨k2 + 1, hk2⟩ =
                rs2.get ⟨k2, by simpa using hk2⟩ := rfl
            have hg : (r :: rest).get ⟨k2 + 1, hk⟩ =
                rest.get ⟨k2, by simpa using hk⟩ := rfl
            have hprev : (if k2 + 1 = 0 then prev
                  else ((r :: rest).get? (k2 + 1 - 1)).map idxD) =
                (if k2 = 0 then some i else (rest.get? (k2 - 1)).map idxD) := by
              rw [if_neg (by omega)]
              cases k2 with
              | zero =>
                rw [if_pos rfl]
                show (some r).map idxD = some i
                rw [Option.map_some', idxD_of_getItem heqI]
              | succ k3 =>
                rw [if_neg (by omega)]
                rfl
            rw [hs, hg, hprev]
            exact ihflag k2 (by simpa using hk) (by simpa using hk2)

theorem claim_C4_witness :
    ([(c8ta, entryLine c8ta)] : List (Dict × String)).length = [sampleRecA].length ∧
    hasKey (([(c8ta, entryLine c8ta)] : List (Dict × String)).get ⟨0, by decide⟩).1
        "last_part" =
      (([] : List Value).contains (idxD ([sampleRecA].get ⟨0, by decide⟩)) &&
       !((if 0 = 0 then (none : Option Value)
          else (([sampleRecA] : List Dict).get? (0 - 1)).map idxD) ==
         some (idxD ([sampleRecA].get ⟨0, by decide⟩)))) := by
  have h := claim_C4_amended [] [(Value.vStr "GameA", "blue")] [sampleRecA] none
    [(c8ta, entryLine c8ta)] (by decide) (by decide)
  exact ⟨h.1, h.2 0 (by decide) (by decide)⟩

theorem claim_C6_witness :
    wikify_link "with_chat" "" = [] ∧
    (∃ s, wikify_link "vod" "x.com?a=b" = [("vod", s)] ∧
      pyStartsWith s "https://" = true ∧ '=' ∉ s.toList ∧
      ('=' ∈ ("x.com?a=b" : String).toList → containsSub "&#61;".toList s.toList = true)) :=
  ⟨(claim_C6 "with_chat" "").1 rfl, (claim_C6 "vod" "x.com?a=b").2 (by decide)⟩

end StreamIndex
